import Mathlib

/-!
Verification of the documentation model and classification/rendering
pipeline of `src/main.py` (a docstring-to-Markdown generator).

Python dictionaries with string keys are embedded as association lists
`List (String × α)` with insertion-order semantics: assignment to an
existing key overwrites the value in place, assignment to a fresh key
appends at the end.  Python strings are Lean `String`s; attribute errors
and type errors raised by the interpreter are embedded with
`Except String`.
-/

set_option autoImplicit false

namespace DocGen

universe u

/-- Embedding of Python dict assignment `m[k] = v`: overwrite in place when
the key is present, append otherwise (insertion order preserved). -/
def dictInsert {α : Type u} : List (String × α) → String → α → List (String × α)
  | [], k, v => [(k, v)]
  | (k2, w) :: rest, k, v =>
      if k2 = k then (k, v) :: rest else (k2, w) :: dictInsert rest k v

/-- Embedding of Python dict lookup `m[k]` / `k in m`. -/
def dictLookup {α : Type u} : List (String × α) → String → Option α
  | [], _ => none
  | (k2, v) :: rest, k => if k2 = k then some v else dictLookup rest k

/-- The key view of an embedded dict, `m.keys()`. -/
def dictKeys {α : Type u} (m : List (String × α)) : List String :=
  m.map (fun p => p.1)

/-- Boolean prefix test on character lists. -/
def listIsPrefOf : List Char → List Char → Bool
  | [], _ => true
  | _ :: _, [] => false
  | a :: as, b :: bs => a == b && listIsPrefOf as bs

/-- Boolean infix (contiguous substring) test on character lists. -/
def listIsInfOf : List Char → List Char → Bool
  | pat, [] => pat.isEmpty
  | pat, c :: rest => listIsPrefOf pat (c :: rest) || listIsInfOf pat rest

/-- Embedding of Python's substring test `pat in s`. -/
def strIn (pat s : String) : Bool :=
  listIsInfOf pat.toList s.toList

/-- Embedding of Python's `a or b` on strings: `b` when `a` is falsy
(the empty string), `a` otherwise. -/
def pyOr (a b : String) : String :=
  if a = "" then b else a

/-- The `returns` field of a parsed docstring (the external parser's
return record): just a type name, as the renderer only reads that. -/
structure Returns where
  type_name : String
deriving DecidableEq

/-- A parameter record of the external docstring parser (spec §3,
consumed read-only): `default` empty means "required". -/
structure ParamDoc where
  arg_name : String
  type_name : String
  description : String
  default : String
deriving DecidableEq

/-- A parsed docstring: short description (sentinel "None" when the
docstring is absent), parameter records, optional return record. -/
structure FunctionDoc where
  short_description : String
  params : List ParamDoc
  returns : Option Returns
deriving DecidableEq

/-- Embedding of `endpoint_decorators` from `src/main.py`: the closed verb set. -/
def endpoint_decorators : List String :=
  ["get", "post", "put"]

/-- Row rendering of `param_table_from`, split into the header and one row per parameter;
the Python loop appends `paramRow p` for each `p` in order, which is the
join of the mapped rows. -/
def paramRow (p : ParamDoc) : String :=
  "| " ++ p.arg_name ++ " | " ++ p.type_name ++ " | " ++ p.description ++
    " | " ++ pyOr p.default "*is required*" ++ " |\n"

/-- Header line of the parameter table in `param_table_from`. -/
def paramTableHeader : String :=
  "**Parameters:**\n\n| Name | Type | Description | Default |\n| --- | --- | --- | --- |\n"

/-- Embedding of `param_table_from(params)` from `src/main.py`. -/
def param_table_from (params : List ParamDoc) : String :=
  if params.length = 0 then ""
  else paramTableHeader ++ String.join (params.map paramRow)

/-- Embedding of `function_to_markdown(name, doc)` from `src/main.py`: the function
template with the comma-joined `name: type` parameter list. -/
def function_to_markdown (name : String) (doc : FunctionDoc) : String :=
  let params := String.intercalate ", "
    (doc.params.map (fun n => n.arg_name ++ ": " ++ n.type_name))
  "## `" ++ name ++ "(" ++ params ++ ")`\n" ++ doc.short_description ++
    "\n\n" ++ param_table_from doc.params ++ "\n"

/-- Embedding of `ClassDoc` from `src/main.py` (methods dict embedded as an
association list in insertion order). -/
structure ClassDoc where
  name : String
  doc : FunctionDoc
  methods : List (String × FunctionDoc)
  decorators : List String
deriving DecidableEq

/-- Embedding of `ClassDoc.append_method`. -/
def ClassDoc.append_method (c : ClassDoc) (name : String) (doc : FunctionDoc) : ClassDoc :=
  { c with methods := dictInsert c.methods name doc }

/-- One row of the methods summary table in `ClassDoc.__str__`:
the Returns cell is backticked `None` when no return type was recorded. -/
def methodRow (name : String) (doc : FunctionDoc) : String :=
  let returns := match doc.returns with
    | none => "`None`"
    | some r => "`" ++ r.type_name ++ "`"
  "| `" ++ name ++ "` | " ++ doc.short_description ++ " | " ++ returns ++ " |\n"

/-- The methods kept in the summary table of `ClassDoc.__str__`: the loop
skips entries named `__init__` (`continue`). -/
def tableSelect (methods : List (String × FunctionDoc)) : List (String × FunctionDoc) :=
  methods.filter (fun p => p.1 ≠ "__init__")

/-- The rows of the methods summary table of `ClassDoc.__str__`, in
insertion order. -/
def methodTableRows (methods : List (String × FunctionDoc)) : List String :=
  (tableSelect methods).map (fun p => methodRow p.1 p.2)

/-- The `method_table` string of `ClassDoc.__str__`: empty when the class
has no methods at all, header plus rows otherwise. -/
def methodTable (methods : List (String × FunctionDoc)) : String :=
  if methods.length ≠ 0 then
    "\n**Methods:**\n\n| Name | Description | Returns |\n| --- | --- | --- |\n" ++
      String.join (methodTableRows methods)
  else ""

/-- The methods kept in the expanded-detail section of `ClassDoc.__str__`:
the loop appends a block exactly for entries whose short description is
not the sentinel. -/
def expandedSelect (methods : List (String × FunctionDoc)) : List (String × FunctionDoc) :=
  methods.filter (fun p => p.2.short_description ≠ "None")

/-- The blocks appended after the class template in `ClassDoc.__str__`
(`base += '\n' + function_to_markdown(name, doc)`). -/
def expandedBlocks (methods : List (String × FunctionDoc)) : List String :=
  (expandedSelect methods).map (fun p => "\n" ++ function_to_markdown p.1 p.2)

/-- Embedding of `ClassDoc.__str__` from `src/main.py`: class template substitution
followed by the expanded-detail blocks. -/
def ClassDoc.toMarkdown (c : ClassDoc) : String :=
  let desc := if c.doc.short_description = "None" then " " else c.doc.short_description
  "# `class` " ++ c.name ++ "\n" ++ desc ++ "\n" ++ methodTable c.methods ++
    "\n\n---\n" ++ String.join (expandedBlocks c.methods)

/-- Embedding of `Doc` from `src/main.py`.  Its `module` field starts as the empty marker and is
set by the visitor to the parsed module docstring, embedded as an
`Option`. -/
structure Doc where
  name : String
  module : Option FunctionDoc
  classes : List ClassDoc
  functions : List (String × FunctionDoc)
  endpoints : List (String × String)
deriving DecidableEq

/-- Embedding of `Doc.__init__(name)`. -/
def Doc.new (name : String) : Doc :=
  { name := name, module := none, classes := [], functions := [], endpoints := [] }

/-- Embedding of `Doc.append_class`: appends a fresh `ClassDoc` and returns it; the
embedding returns its index into `classes` in place of the alias. -/
def Doc.append_class (d : Doc) (name : String) (doc : FunctionDoc)
    (decorators : List String) : Doc × Nat :=
  ({ d with classes := d.classes ++ [ClassDoc.mk name doc [] decorators] },
    d.classes.length)

/-- In-place update of `l` at index `i` (out-of-range indices leave `l`
unchanged); used to embed mutation of a `ClassDoc` held inside
`Doc.classes`. -/
def listModify {α : Type u} : List α → Nat → (α → α) → List α
  | [], _, _ => []
  | a :: rest, 0, f => f a :: rest
  | a :: rest, Nat.succ i, f => a :: listModify rest i f

/-- Embedding of `append_method` called on the `ClassDoc` stored at index `idx` of
`Doc.classes` (the visitor mutates the class it just created through the
alias returned by `append_class`). -/
def Doc.appendMethodAt (d : Doc) (idx : Nat) (name : String) (doc : FunctionDoc) : Doc :=
  { d with classes := listModify d.classes idx (fun c => c.append_method name doc) }

/-- The inner loop of `Doc.append_function` for one decorator tag: for
each verb in `endpoint_decorators`, if the verb is a substring of the tag
(`point in decorator`), assign `endpoints[name] = decorator`. -/
def Doc.matchStep (d : Doc) (name : String) (decorator : String) : Doc :=
  endpoint_decorators.foldl
    (fun d point =>
      if strIn point decorator then
        { d with endpoints := dictInsert d.endpoints name decorator }
      else d)
    d

/-- Embedding of `Doc.append_function` from `src/main.py`: the nested decorator/verb
loops followed by the unconditional `functions[name] = doc`. -/
def Doc.append_function (d : Doc) (name : String) (doc : FunctionDoc)
    (decorators : List String) : Doc :=
  let d := decorators.foldl (fun d decorator => d.matchStep name decorator) d
  { d with functions := dictInsert d.functions name doc }

/-- One iteration of the `for name, docs in self.functions.items()` loop
of `Doc.compile`: the rendered function goes to the endpoint triples when
its name is an endpoint key, to the plain function list otherwise. -/
def compileStep (endpoints : List (String × String))
    (acc : List String × List (String × String × String))
    (p : String × FunctionDoc) : List String × List (String × String × String) :=
  let doc := function_to_markdown p.1 p.2
  match dictLookup endpoints p.1 with
  | some ep => (acc.1, acc.2 ++ [(p.1, doc, ep)])
  | none => (acc.1 ++ [doc], acc.2)

/-- Embedding of `Doc.compile` from `src/main.py` as state passing: the
method reads `self` and never writes it, so the state component of the
result is the input `Doc`; the value component is the triple
`(class_docs, func_docs, endpoint_docs)`. -/
def Doc.compile (d : Doc) :
    Doc × (List String × List String × List (String × String × String)) :=
  let class_docs := d.classes.map ClassDoc.toMarkdown
  let fe := d.functions.foldl (compileStep d.endpoints) ([], [])
  (d, (class_docs, fe.1, fe.2))

/-- A decorator tag on which the code's endpoint test fires: some verb of
`endpoint_decorators` is a substring of the whole tag. -/
def isEndpointTag (decorator : String) : Bool :=
  endpoint_decorators.any (fun point => strIn point decorator)

/-- The colon-separated prefix of a normalized decorator tag (the callee
portion before the first colon), used to state the spec's version of the
endpoint rule. -/
def beforeColonAux : List Char → List Char
  | [] => []
  | ':' :: _ => []
  | c :: rest => c :: beforeColonAux rest

/-- String form of `beforeColonAux`. -/
def beforeColon (tag : String) : String :=
  String.mk (beforeColonAux tag.toList)

/-- The endpoint-classification rule as the spec words it (claim C2):
a verb must occur as a substring of the colon-separated prefix. -/
def specEndpointRule (tag : String) : Bool :=
  endpoint_decorators.any (fun point => strIn point (beforeColon tag))

/-- Python constant values that can appear as `ast.Constant.value` in a
decorator argument. -/
inductive PyVal where
  | str (s : String)
  | int (n : Int)
  | bool (b : Bool)
  | nonePy
deriving DecidableEq

/-- Python expressions in decorator position (`ast.Name`, `ast.Attribute`,
`ast.Call`, `ast.Constant`, anything else as `other`). -/
inductive PyExpr where
  | name (id : String)
  | attr (base : String) (attrName : String)
  | call (func : PyExpr) (args : List PyExpr)
  | const (value : PyVal)
  | other

/-- Embedding of `grab_id` from `decorator_names`: the callee's `id` for a plain name,
its final attribute component for an attribute access, and an
`AttributeError` for any other callee shape (Python evaluates
`name.func.attr` there). -/
def grab_id : PyExpr → Except String String
  | .name id => .ok id
  | .attr _ attrName => .ok attrName
  | _ => .error "AttributeError"

/-- The element check of `', '.join(args)`: Python raises a `TypeError`
at the first element that is not a string. -/
def strJoinVals : List PyVal → Except String (List String)
  | [] => .ok []
  | .str s :: rest => do
      let r ← strJoinVals rest
      return s :: r
  | _ :: _ => .error "TypeError"

/-- Embedding of `', '.join(args)` on the collected constant values. -/
def strJoin (sep : String) (vals : List PyVal) : Except String String := do
  return String.intercalate sep (← strJoinVals vals)

/-- One iteration of the `for name in node.decorator_list` loop of
`decorator_names`: a bare name yields itself, a call yields
`callee:args` with only constant arguments kept, and any other shape is
skipped. -/
def decoratorStep (names : List String) (name : PyExpr) : Except String (List String) :=
  match name with
  | .name id => .ok (names ++ [id])
  | .call func args => do
      let n ← grab_id func
      let vals := args.filterMap (fun a =>
        match a with
        | .const v => some v
        | _ => none)
      let joined ← strJoin ", " vals
      return names ++ [n ++ ":" ++ joined]
  | _ => .ok names

/-- Embedding of `decorator_names(node)` from `src/main.py`, over the node's decorator
list. -/
def decorator_names (decorator_list : List PyExpr) : Except String (List String) :=
  decorator_list.foldlM decoratorStep []

/-- A decorator expression `decorator_names` is sure not to raise on:
anything but a call, or a call whose callee is a plain name or an
attribute access and whose constant arguments are all strings. -/
def goodDecorator : PyExpr → Prop
  | .call func args =>
      (∃ id, func = .name id ∨ ∃ b a, func = .attr b a) ∧
        ∀ v, PyExpr.const v ∈ args → ∃ s, v = .str s
  | _ => True

/-- Python syntax-tree nodes as the visitor distinguishes them: module,
class and function definitions carrying their decorator expressions and
bodies, constant-expression statements (docstrings), and other nodes. -/
inductive PyNode where
  | module (body : List PyNode)
  | classDefn (name : String) (decorator_list : List PyExpr) (body : List PyNode)
  | funcDefn (name : String) (decorator_list : List PyExpr) (body : List PyNode)
  | exprConst (s : String)
  | other (children : List PyNode)

/-- Embedding of `ast.get_docstring`: the docstring of a module, class or
function whose body starts with a string-constant expression statement. -/
def getDocstring : PyNode → Option String
  | .module body => bodyDocstring body
  | .classDefn _ _ body => bodyDocstring body
  | .funcDefn _ _ body => bodyDocstring body
  | _ => none
where
  /-- First statement of a body, when a string constant. -/
  bodyDocstring : List PyNode → Option String
  | .exprConst s :: _ => some s
  | _ => none

/-- Embedding of Python's `x.__str__()` on `get_docstring`'s result:
`None.__str__()` is the literal text "None". -/
def optStr : Option String → String
  | none => "None"
  | some s => s

/-- First blank-line-separated paragraph of a text. -/
def firstParagraphAux : List Char → List Char
  | [] => []
  | '\n' :: '\n' :: _ => []
  | c :: rest => c :: firstParagraphAux rest

/-- Modelled from the spec: the external docstring parser
(`docstring_parser.parse`, out of scope per §1) structures a raw text
into short description, parameters and return type; only the short
description is modelled here — the first blank-line-separated paragraph
of the text — since the claims exercise nothing else on this path;
parameters and return type are left unmodelled as empty. -/
def docstringParse (text : String) : FunctionDoc :=
  { short_description := String.mk (firstParagraphAux text.toList),
    params := [], returns := none }

/-- Embedding of `DocVisitor.grab_doc` from `src/main.py`:
`docstring_parse(get_docstring(node).__str__())`. -/
def grab_doc (node : PyNode) : FunctionDoc :=
  docstringParse (optStr (getDocstring node))

mutual

/-- Embedding of the `DocVisitor.visit` dispatch from `src/main.py`: modules store their
docstring and recurse; function definitions append to `functions` (with
decorator classification) and recurse; class definitions append a
`ClassDoc`, record the immediate `FunctionDef` children as methods
(visiting each recorded child's children, per `generic_visit(content)`),
then recurse over all children (`generic_visit(node)`); all other nodes
just recurse.  A raise inside `decorator_names` aborts the traversal. -/
def visit (d : Doc) (n : PyNode) : Except String Doc :=
  match n with
  | .module body => do
      let d := { d with module := some (grab_doc (.module body)) }
      genericVisitList d body
  | .funcDefn name decs body => do
      let tags ← decorator_names decs
      let d := d.append_function name (grab_doc (.funcDefn name decs body)) tags
      genericVisitList d body
  | .classDefn name decs body => do
      let tags ← decorator_names decs
      let pair := d.append_class name (grab_doc (.classDefn name decs body)) tags
      let d ← methodsLoop pair.1 pair.2 body
      genericVisitList d body
  | .exprConst _ => pure d
  | .other children => genericVisitList d children
termination_by sizeOf n

/-- The `for content in node.body` loop of `visit_ClassDef`: each
immediate `FunctionDef` child is appended as a method of the class at
`idx` and its children are visited (`generic_visit(content)`); other
children are skipped. -/
def methodsLoop (d : Doc) (idx : Nat) (body : List PyNode) : Except String Doc :=
  match body with
  | [] => pure d
  | n :: rest => do
      let d ← match n with
        | .funcDefn fname fdecs fbody => do
            let d := d.appendMethodAt idx fname (grab_doc (.funcDefn fname fdecs fbody))
            genericVisitList d fbody
        | _ => pure d
      methodsLoop d idx rest
termination_by sizeOf body

/-- Embedding of `NodeVisitor.generic_visit`: dispatch `visit` on each child in
order, threading the accumulated `Doc` (errors abort). -/
def genericVisitList (d : Doc) (ns : List PyNode) : Except String Doc :=
  match ns with
  | [] => pure d
  | n :: rest => do
      let d ← visit d n
      genericVisitList d rest
termination_by sizeOf ns

end

/-- The mutating operations of the documentation model (spec §4.2), for
stating invariants over arbitrary operation sequences.  `appendMethod`
addresses the class by its index in `Doc.classes`, as `appendMethodAt`
does; `compile` keeps the state component of `Doc.compile`. -/
inductive Op where
  | appendClass (name : String) (doc : FunctionDoc) (decorators : List String)
  | appendFunction (name : String) (doc : FunctionDoc) (decorators : List String)
  | appendMethod (idx : Nat) (name : String) (doc : FunctionDoc)
  | compile

/-- Apply one model operation to a `Doc`. -/
def applyOp (d : Doc) : Op → Doc
  | .appendClass name doc decs => (d.append_class name doc decs).1
  | .appendFunction name doc decs => d.append_function name doc decs
  | .appendMethod idx name doc => d.appendMethodAt idx name doc
  | .compile => (d.compile).1

/-- What any visitor step preserves of an already-built `Doc`: classes
never shrink, already-present classes are untouched, and keys present in
`functions` stay present. -/
def Preserves (d d' : Doc) : Prop :=
  d.classes.length ≤ d'.classes.length ∧
  (∀ i, i < d.classes.length → d'.classes.get? i = d.classes.get? i) ∧
  (∀ k, (dictLookup d.functions k).isSome → (dictLookup d'.functions k).isSome)

/-- What the `visit_ClassDef` method loop preserves while it mutates the
class at index `idx`: all other classes and the `functions` dict are
untouched, and the mutated class only keeps or gains methods (its name
unchanged). -/
def MLPres (d : Doc) (idx : Nat) (d' : Doc) : Prop :=
  d.classes.length ≤ d'.classes.length ∧
  (∀ i, i < d.classes.length → i ≠ idx → d'.classes.get? i = d.classes.get? i) ∧
  (∀ k, (dictLookup d.functions k).isSome → (dictLookup d'.functions k).isSome) ∧
  (∀ c, d.classes.get? idx = some c → ∃ c2, d'.classes.get? idx = some c2 ∧
    c2.name = c.name ∧
    ∀ k, (dictLookup c.methods k).isSome → (dictLookup c2.methods k).isSome)

/-- A sample parsed docstring, used by concrete instances. -/
def fd0 : FunctionDoc :=
  { short_description := "d", params := [], returns := none }

/-- The `run` method of the spec's round-trip scenario (claim C4):
description "Runs it.", declared return type `bool`. -/
def runDoc : FunctionDoc :=
  { short_description := "Runs it.", params := [], returns := some ⟨"bool"⟩ }

/-- A constructor docstring with a given short description and nothing
else, for the round-trip scenario. -/
def mkInit (desc : String) : FunctionDoc :=
  { short_description := desc, params := [], returns := none }

/-- The methods dict of the round-trip scenario: `__init__` with the
given description, then `run`. -/
def roundTripMethods (initDesc : String) : List (String × FunctionDoc) :=
  [("__init__", mkInit initDesc), ("run", runDoc)]

/-- A sample parameter with no recorded default. -/
def pReq : ParamDoc :=
  { arg_name := "x", type_name := "int", description := "the input", default := "" }

/-- A sample parameter with a recorded default. -/
def pDef : ParamDoc :=
  { arg_name := "y", type_name := "str", description := "a flag", default := "\"a\"" }

/-- A concrete source tree for the visitor instances: one class with a
docstring and one method `run` that has its own docstring. -/
def tree1 : PyNode :=
  .classDefn "C" [] [.exprConst "Class doc.", .funcDefn "run" [] [.exprConst "Runs it."]]

/-- The `Doc` the visitor builds from `tree1`. -/
def tree1Doc : Doc :=
  { name := "m", module := none,
    classes := [⟨"C", ⟨"Class doc.", [], none⟩, [("run", ⟨"Runs it.", [], none⟩)], []⟩],
    functions := [("run", ⟨"Runs it.", [], none⟩)],
    endpoints := [] }

/-! Helper lemmas about the embedded dict operations. -/

section DictLemmas

universe v

variable {α : Type v}

theorem dictLookup_dictInsert_self (m : List (String × α)) (k : String) (v : α) :
    dictLookup (dictInsert m k v) k = some v := by
  induction m with
  | nil => simp [dictInsert, dictLookup]
  | cons p rest ih =>
      obtain ⟨k2, w⟩ := p
      by_cases h : k2 = k <;> simp [dictInsert, dictLookup, h, ih]

theorem dictLookup_dictInsert_ne (m : List (String × α)) (k j : String) (v : α)
    (h : j ≠ k) : dictLookup (dictInsert m k v) j = dictLookup m j := by
  have h2 : ¬k = j := fun hc => h hc.symm
  induction m with
  | nil => simp [dictInsert, dictLookup, h2]
  | cons p rest ih =>
      obtain ⟨k2, w⟩ := p
      by_cases hk : k2 = k
      · subst hk
        simp [dictInsert, dictLookup, h2]
      · by_cases hj : k2 = j <;> simp [dictInsert, dictLookup, hk, hj, h, h2, ih]

theorem dictInsert_idem (m : List (String × α)) (k : String) (v : α) :
    dictInsert (dictInsert m k v) k v = dictInsert m k v := by
  induction m with
  | nil => simp [dictInsert]
  | cons p rest ih =>
      obtain ⟨k2, w⟩ := p
      by_cases h : k2 = k <;> simp [dictInsert, h, ih]

theorem mem_dictKeys_dictInsert (m : List (String × α)) (k j : String) (v : α) :
    j ∈ dictKeys (dictInsert m k v) ↔ j = k ∨ j ∈ dictKeys m := by
  induction m with
  | nil => simp [dictInsert, dictKeys]
  | cons p rest ih =>
      obtain ⟨k2, w⟩ := p
      by_cases h : k2 = k
      · subst h
        simp [dictInsert, dictKeys]
      · simp [dictInsert, dictKeys, h] at ih ⊢
        tauto

theorem dictLookup_isSome_iff (m : List (String × α)) (j : String) :
    (dictLookup m j).isSome ↔ j ∈ dictKeys m := by
  induction m with
  | nil => simp [dictLookup, dictKeys]
  | cons p rest ih =>
      obtain ⟨k2, w⟩ := p
      by_cases h : k2 = j
      · simp [dictLookup, dictKeys, h]
      · have h2 : ¬j = k2 := fun hc => h hc.symm
        simp [dictLookup, dictKeys, h, h2, ih]

theorem dictLookup_isSome_dictInsert (m : List (String × α)) (k j : String) (v : α)
    (h : (dictLookup m j).isSome) : (dictLookup (dictInsert m k v) j).isSome := by
  by_cases hj : j = k
  · subst hj
    simp [dictLookup_dictInsert_self]
  · rwa [dictLookup_dictInsert_ne _ _ _ _ hj]

theorem dictLookup_mem (m : List (String × α)) (k : String) (v : α)
    (h : dictLookup m k = some v) : (k, v) ∈ m := by
  induction m with
  | nil => simp [dictLookup] at h
  | cons p rest ih =>
      obtain ⟨k2, w⟩ := p
      by_cases hk : k2 = k
      · subst hk
        simp [dictLookup] at h
        simp [h]
      · simp [dictLookup, hk] at h
        exact List.mem_cons_of_mem _ (ih h)

/-- In a dict with no duplicate keys, two entries with the same key are
the same entry. -/
theorem nodupKeys_eq (m : List (String × α)) (hnd : (dictKeys m).Nodup)
    (k : String) (v w : α) (hv : (k, v) ∈ m) (hw : (k, w) ∈ m) : v = w := by
  induction m with
  | nil => simp at hv
  | cons p rest ih =>
      obtain ⟨k2, u⟩ := p
      have hnd2 : k2 ∉ dictKeys rest ∧ (dictKeys rest).Nodup :=
        List.nodup_cons.1 (by simpa [dictKeys] using hnd)
      rcases List.mem_cons.1 hv with hv1 | hv2 <;>
        rcases List.mem_cons.1 hw with hw1 | hw2
      · rw [Prod.ext_iff] at hv1 hw1
        exact hv1.2.trans hw1.2.symm
      · exfalso
        rw [Prod.ext_iff] at hv1
        have hk : k = k2 := hv1.1
        refine hnd2.1 ?_
        rw [← hk]
        exact List.mem_map_of_mem (fun p => p.1) hw2
      · exfalso
        rw [Prod.ext_iff] at hw1
        have hk : k = k2 := hw1.1
        refine hnd2.1 ?_
        rw [← hk]
        exact List.mem_map_of_mem (fun p => p.1) hv2
      · exact ih hnd2.2 hv2 hw2

end DictLemmas

/-! Helper lemmas about `listModify`. -/

section ListModifyLemmas

universe v

variable {α : Type v}

theorem listModify_length (l : List α) (i : Nat) (f : α → α) :
    (listModify l i f).length = l.length := by
  induction l generalizing i with
  | nil => simp [listModify]
  | cons a rest ih =>
      cases i with
      | zero => simp [listModify]
      | succ j => simp [listModify, ih]

theorem listModify_get?_ne (l : List α) (i j : Nat) (f : α → α) (h : j ≠ i) :
    (listModify l i f).get? j = l.get? j := by
  induction l generalizing i j with
  | nil => simp [listModify]
  | cons a rest ih =>
      cases i with
      | zero =>
          cases j with
          | zero => exact absurd rfl h
          | succ j2 => simp [listModify]
      | succ i2 =>
          cases j with
          | zero => simp [listModify]
          | succ j2 => simpa [listModify] using ih i2 j2 (fun hc => h (by omega))

theorem listModify_get?_self (l : List α) (i : Nat) (f : α → α) (a : α)
    (h : l.get? i = some a) : (listModify l i f).get? i = some (f a) := by
  induction l generalizing i with
  | nil => simp at h
  | cons b rest ih =>
      cases i with
      | zero =>
          simp at h
          simp [listModify, h]
      | succ i2 => simpa [listModify] using ih i2 (by simpa using h)

end ListModifyLemmas

/-! Characterization of the endpoint-classification loops. -/

theorem matchStep_eq (d : Doc) (name dec : String) :
    d.matchStep name dec =
      if isEndpointTag dec then { d with endpoints := dictInsert d.endpoints name dec }
      else d := by
  simp only [Doc.matchStep, isEndpointTag, endpoint_decorators, List.foldl,
    List.any_cons, List.any_nil]
  by_cases h1 : strIn "get" dec <;> by_cases h2 : strIn "post" dec <;>
    by_cases h3 : strIn "put" dec <;> simp [h1, h2, h3, dictInsert_idem]

theorem matchStep_functions (d : Doc) (name dec : String) :
    (d.matchStep name dec).functions = d.functions := by
  rw [matchStep_eq]
  split <;> rfl

theorem matchStep_classes (d : Doc) (name dec : String) :
    (d.matchStep name dec).classes = d.classes := by
  rw [matchStep_eq]
  split <;> rfl

theorem foldMatch_functions (name : String) (l : List String) (d : Doc) :
    ((l.foldl (fun d dec => d.matchStep name dec) d)).functions = d.functions := by
  induction l generalizing d with
  | nil => rfl
  | cons dec rest ih => simpa [matchStep_functions] using ih (d.matchStep name dec)

theorem foldMatch_classes (name : String) (l : List String) (d : Doc) :
    ((l.foldl (fun d dec => d.matchStep name dec) d)).classes = d.classes := by
  induction l generalizing d with
  | nil => rfl
  | cons dec rest ih => simpa [matchStep_classes] using ih (d.matchStep name dec)

theorem getLast?_cons_ex {α : Type u} (x : α) (xs : List α) :
    ∃ t, (x :: xs).getLast? = some t := by
  induction xs generalizing x with
  | nil => exact ⟨x, rfl⟩
  | cons y ys ih => simpa [List.getLast?_cons_cons] using ih y

theorem foldMatch_lookup (name : String) (l : List String) (d : Doc) :
    dictLookup ((l.foldl (fun d dec => d.matchStep name dec) d)).endpoints name =
      match (l.filter isEndpointTag).getLast? with
      | some t => some t
      | none => dictLookup d.endpoints name := by
  induction l generalizing d with
  | nil => simp
  | cons dec rest ih =>
      simp only [List.foldl_cons, List.filter_cons]
      rw [ih]
      by_cases h : isEndpointTag dec
      · rw [if_pos h]
        cases hr : rest.filter isEndpointTag with
        | nil => simp [hr, matchStep_eq, h, dictLookup_dictInsert_self]
        | cons x xs =>
            obtain ⟨t, ht⟩ := getLast?_cons_ex x xs
            rw [List.getLast?_cons_cons, ht]
      · rw [if_neg h]
        cases hr : rest.filter isEndpointTag with
        | nil => simp [hr, matchStep_eq, h]
        | cons x xs =>
            obtain ⟨t, ht⟩ := getLast?_cons_ex x xs
            rw [ht]

theorem foldMatch_keys (name : String) (l : List String) (d : Doc) (j : String)
    (h : j ∈ dictKeys ((l.foldl (fun d dec => d.matchStep name dec) d)).endpoints) :
    j = name ∨ j ∈ dictKeys d.endpoints := by
  induction l generalizing d with
  | nil => exact Or.inr h
  | cons dec rest ih =>
      rcases ih (d.matchStep name dec) (by simpa using h) with h1 | h2
      · exact Or.inl h1
      · rw [matchStep_eq] at h2
        by_cases he : isEndpointTag dec
        · rw [if_pos he] at h2
          exact (mem_dictKeys_dictInsert _ _ _ _).1 h2
        · rw [if_neg he] at h2
          exact Or.inr h2

theorem append_function_endpoints (d : Doc) (name : String) (doc : FunctionDoc)
    (decorators : List String) :
    (d.append_function name doc decorators).endpoints =
      ((decorators.foldl (fun d dec => d.matchStep name dec) d)).endpoints := rfl

theorem append_function_functions (d : Doc) (name : String) (doc : FunctionDoc)
    (decorators : List String) :
    (d.append_function name doc decorators).functions =
      dictInsert d.functions name doc := by
  show dictInsert ((decorators.foldl (fun d dec => d.matchStep name dec) d)).functions
      name doc = _
  rw [foldMatch_functions]

theorem append_function_classes (d : Doc) (name : String) (doc : FunctionDoc)
    (decorators : List String) :
    (d.append_function name doc decorators).classes = d.classes := by
  show ((decorators.foldl (fun d dec => d.matchStep name dec) d)).classes = _
  rw [foldMatch_classes]

theorem getLast?_none {α : Type u} (l : List α) (h : l.getLast? = none) : l = [] := by
  cases l with
  | nil => rfl
  | cons x xs =>
      obtain ⟨t, ht⟩ := getLast?_cons_ex x xs
      rw [ht] at h
      cases h

/-! Claim theorems. -/

/-- Claim C1, counterexample: on decorators `["get:/a", "post:/b"]` the
descriptor stored in `endpoints` is `"post:/b"`, not the first matching
tag `"get:/a"` — the inner assignment has no break, so every match
overwrites the previous one. -/
theorem C1_counterexample :
    dictLookup ((Doc.new "m").append_function "f" fd0 ["get:/a", "post:/b"]).endpoints "f" =
      some "post:/b" ∧ ("post:/b" : String) ≠ "get:/a" :=
  ⟨by decide, by decide⟩

/-- Claim C1, amended: for every call of `Doc.append_function`, when at
least one decorator tag satisfies the endpoint-classification rule, the
descriptor stored in `endpoints[name]` is the LAST matching tag in
decorator order (later matching tags overwrite earlier ones). -/
theorem C1_last_match_wins (d : Doc) (name : String) (doc : FunctionDoc)
    (decorators : List String) (t : String)
    (h : (decorators.filter isEndpointTag).getLast? = some t) :
    dictLookup (d.append_function name doc decorators).endpoints name = some t := by
  rw [append_function_endpoints, foldMatch_lookup, h]

/-- Witness for C1: concrete run on `["get:/a", "post:/b"]`, where the
last matching tag is `"post:/b"`. -/
theorem C1_last_match_wins_witness :
    (["get:/a", "post:/b"].filter isEndpointTag).getLast? = some "post:/b" ∧
    dictLookup ((Doc.new "m").append_function "f" fd0 ["get:/a", "post:/b"]).endpoints "f" =
      some "post:/b" :=
  ⟨by decide, C1_last_match_wins (Doc.new "m") "f" fd0 ["get:/a", "post:/b"] "post:/b" (by decide)⟩

/-- Claim C2, counterexample: the tag `"foo:get"` has no verb in its
colon-separated prefix (`specEndpointRule` is false on it), yet
`append_function` classifies the function as an endpoint, because the
code tests `point in decorator` against the whole tag, argument portion
included. -/
theorem C2_counterexample :
    specEndpointRule "foo:get" = false ∧
    dictLookup ((Doc.new "m").append_function "f" fd0 ["foo:get"]).endpoints "f" =
      some "foo:get" :=
  ⟨by decide, by decide⟩

/-- Claim C2, amended: a function is classified as an endpoint iff one
of the verb tokens get, post, put occurs as a substring ANYWHERE in one
of its normalized decorator tags — the colon-separated prefix and the
argument portion both count. -/
theorem C2_whole_tag_substring (d : Doc) (name : String) (doc : FunctionDoc)
    (decorators : List String) (h : dictLookup d.endpoints name = none) :
    (dictLookup (d.append_function name doc decorators).endpoints name).isSome ↔
      decorators.any isEndpointTag := by
  rw [append_function_endpoints, foldMatch_lookup]
  cases hfe : decorators.filter isEndpointTag with
  | nil =>
      have hall := List.filter_eq_nil_iff.1 hfe
      simp only [List.getLast?_nil, h, Option.isSome_none, Bool.false_eq_true, false_iff]
      intro hany
      obtain ⟨x, hx, hpx⟩ := List.any_eq_true.1 hany
      exact hall x hx hpx
  | cons x xs =>
      obtain ⟨t, ht⟩ := getLast?_cons_ex x xs
      rw [ht]
      simp only [Option.isSome_some, true_iff]
      have hx : x ∈ decorators.filter isEndpointTag := by
        rw [hfe]
        exact List.mem_cons_self x xs
      have hm := List.mem_filter.1 hx
      exact List.any_eq_true.2 ⟨x, hm.1, hm.2⟩

/-- Witness for C2: a verb occurring only after the colon still
classifies, on a fresh `Doc`. -/
theorem C2_whole_tag_substring_witness :
    dictLookup (Doc.new "m").endpoints "f" = none ∧
    ((dictLookup ((Doc.new "m").append_function "f" fd0 ["route:/fetch"]).endpoints "f").isSome ↔
      ["route:/fetch"].any isEndpointTag) :=
  ⟨rfl, C2_whole_tag_substring (Doc.new "m") "f" fd0 ["route:/fetch"] rfl⟩

/-- Claim C5: after every sequence of append_class / append_function /
append_method / compile operations starting from a fresh `Doc`, every
key of `endpoints` is also a key of `functions`. -/
theorem C5_endpoints_subset_functions (name : String) (ops : List Op) :
    ∀ k ∈ dictKeys ((ops.foldl applyOp (Doc.new name))).endpoints,
      k ∈ dictKeys ((ops.foldl applyOp (Doc.new name))).functions := by
  suffices hstep : ∀ (d : Doc), (∀ k ∈ dictKeys d.endpoints, k ∈ dictKeys d.functions) →
      ∀ k ∈ dictKeys ((ops.foldl applyOp d)).endpoints,
        k ∈ dictKeys ((ops.foldl applyOp d)).functions by
    refine hstep (Doc.new name) ?_
    intro k hk
    simp [Doc.new, dictKeys] at hk
  induction ops with
  | nil => intro d hd; exact hd
  | cons op rest ih =>
      intro d hd
      refine ih (applyOp d op) ?_
      intro k hk
      cases op with
      | appendClass n doc decs =>
          exact hd k hk
      | appendFunction n doc decs =>
          have hk2 : k = n ∨ k ∈ dictKeys d.endpoints := by
            apply foldMatch_keys n decs d k
            simpa [applyOp, append_function_endpoints] using hk
          have hfun : (applyOp d (Op.appendFunction n doc decs)).functions =
              dictInsert d.functions n doc := append_function_functions d n doc decs
          rw [hfun, mem_dictKeys_dictInsert]
          rcases hk2 with h1 | h2
          · exact Or.inl h1
          · exact Or.inr (hd k h2)
      | appendMethod idx n doc =>
          exact hd k hk
      | compile =>
          exact hd k hk

/-- Witness for C5: one `append_function` with an endpoint decorator;
the endpoint key `"f"` is a key of `functions`. -/
theorem C5_endpoints_subset_functions_witness :
    "f" ∈ dictKeys (([Op.appendFunction "f" fd0 ["get:/a"]].foldl applyOp (Doc.new "m"))).endpoints ∧
    "f" ∈ dictKeys (([Op.appendFunction "f" fd0 ["get:/a"]].foldl applyOp (Doc.new "m"))).functions :=
  ⟨by decide, C5_endpoints_subset_functions "m" [Op.appendFunction "f" fd0 ["get:/a"]] "f" (by decide)⟩

/-- Claim C7: `Doc.compile` is a pure read — the state component of the
embedded method is the unchanged input `Doc` — and compiling the
resulting state again returns an identical result (idempotence). -/
theorem C7_compile_pure_idempotent (d : Doc) :
    (d.compile).1 = d ∧ ((d.compile).1).compile = d.compile :=
  ⟨rfl, rfl⟩

/-- Claim C9: when a node has no attached doc-comment, `grab_doc` yields
a description whose short-description text is the literal sentinel
"None" (Python stringifies the `None` returned by `get_docstring`). -/
theorem C9_missing_docstring_sentinel (node : PyNode) (h : getDocstring node = none) :
    (grab_doc node).short_description = "None" := by
  unfold grab_doc
  rw [h]
  decide

/-- Witness for C9: a function definition with an empty body has no
docstring and gets the sentinel description. -/
theorem C9_missing_docstring_sentinel_witness :
    getDocstring (PyNode.funcDefn "f" [] []) = none ∧
    (grab_doc (PyNode.funcDefn "f" [] [])).short_description = "None" :=
  ⟨rfl, C9_missing_docstring_sentinel (PyNode.funcDefn "f" [] []) rfl⟩

/-- Claim C10: `param_table_from` returns the empty string exactly on an
empty parameter list; on a non-empty list it returns the
Name/Type/Description/Default table whose Default cell renders the
literal required-marker text when no default was recorded and the
recorded default otherwise. -/
theorem C10_param_table :
    param_table_from [] = "" ∧
    (∀ ps : List ParamDoc, ps ≠ [] →
      param_table_from ps = paramTableHeader ++ String.join (ps.map paramRow)) ∧
    (∀ p : ParamDoc, p.default = "" → pyOr p.default "*is required*" = "*is required*") ∧
    (∀ p : ParamDoc, p.default ≠ "" → pyOr p.default "*is required*" = p.default) := by
  refine ⟨rfl, ?_, ?_, ?_⟩
  · intro ps hps
    unfold param_table_from
    rw [if_neg]
    simpa [List.length_eq_zero] using hps
  · intro p hp
    simp [pyOr, hp]
  · intro p hp
    simp [pyOr, hp]

theorem exceptBind_ok {α β : Type} (a : α) (f : α → Except String β) :
    (Except.ok a >>= f : Except String β) = f a := rfl

theorem exceptBind_err {α β : Type} (e : String) (f : α → Except String β) :
    (Except.error e >>= f : Except String β) = Except.error e := rfl

theorem exceptPure_eq {α : Type} (a : α) : (pure a : Except String α) = Except.ok a := rfl

theorem strJoinVals_ok (vals : List PyVal) (h : ∀ v ∈ vals, ∃ s, v = PyVal.str s) :
    ∃ ss, strJoinVals vals = Except.ok ss := by
  induction vals with
  | nil => exact ⟨[], rfl⟩
  | cons v rest ih =>
      obtain ⟨s, hs⟩ := h v (List.mem_cons_self v rest)
      subst hs
      obtain ⟨ss, hss⟩ := ih (fun w hw => h w (List.mem_cons_of_mem _ hw))
      exact ⟨s :: ss, by simp [strJoinVals, hss, Except.bind]⟩

theorem decoratorStep_ok (names : List String) (e : PyExpr) (h : goodDecorator e) :
    ∃ r, decoratorStep names e = Except.ok r := by
  cases e with
  | name id => exact ⟨names ++ [id], rfl⟩
  | attr b a => exact ⟨names, rfl⟩
  | const v => exact ⟨names, rfl⟩
  | other => exact ⟨names, rfl⟩
  | call func args =>
      obtain ⟨⟨id, hid⟩, hargs⟩ := h
      have hvals : ∀ v ∈ args.filterMap (fun a =>
          match a with
          | PyExpr.const v => some v
          | _ => none), ∃ s, v = PyVal.str s := by
        intro v hv
        obtain ⟨a2, ha2, hfa⟩ := List.mem_filterMap.1 hv
        cases a2 with
        | const v2 =>
            simp at hfa
            subst hfa
            exact hargs v2 ha2
        | name i => simp at hfa
        | attr b a => simp at hfa
        | call f as => simp at hfa
        | other => simp at hfa
      obtain ⟨ss, hss⟩ := strJoinVals_ok _ hvals
      rcases hid with h1 | ⟨b, a, h2⟩
      · subst h1
        exact ⟨names ++ [id ++ ":" ++ String.intercalate ", " ss],
          by simp [decoratorStep, grab_id, strJoin, hss, Except.bind, exceptBind_ok]⟩
      · subst h2
        exact ⟨names ++ [a ++ ":" ++ String.intercalate ", " ss],
          by simp [decoratorStep, grab_id, strJoin, hss, Except.bind, exceptBind_ok]⟩

theorem foldlM_decorator_ok (dl : List PyExpr) (h : ∀ e ∈ dl, goodDecorator e) :
    ∀ acc, ∃ r, dl.foldlM decoratorStep acc = Except.ok r := by
  induction dl with
  | nil => intro acc; exact ⟨acc, rfl⟩
  | cons e rest ih =>
      intro acc
      obtain ⟨r1, hr1⟩ := decoratorStep_ok acc e (h e (List.mem_cons_self e rest))
      obtain ⟨r2, hr2⟩ := ih (fun e2 he2 => h e2 (List.mem_cons_of_mem _ he2)) r1
      exact ⟨r2, by simp [List.foldlM_cons, hr1, Except.bind, hr2, exceptBind_ok]⟩

/-- Claim C3, counterexample: `decorator_names` can raise — a call
decorator with a non-string constant argument makes the string join
raise a `TypeError`, and a call whose callee is neither a plain name nor
an attribute access raises an `AttributeError` in `grab_id`. -/
theorem C3_counterexample :
    decorator_names [PyExpr.call (PyExpr.name "foo") [PyExpr.const (PyVal.int 1)]] =
      Except.error "TypeError" ∧
    decorator_names [PyExpr.call (PyExpr.call (PyExpr.name "f") []) []] =
      Except.error "AttributeError" :=
  ⟨rfl, rfl⟩

/-- Claim C3, amended: `decorator_names` returns without raising
provided every call decorator has a plain-name or attribute callee and
only string constants among its constant arguments; decorators that are
neither names nor calls are silently skipped, and non-constant call
arguments are silently dropped. -/
theorem C3_no_raise_on_supported_shapes (dl : List PyExpr)
    (h : ∀ e ∈ dl, goodDecorator e) : ∃ r, decorator_names dl = Except.ok r :=
  foldlM_decorator_ok dl h []

/-- Witness for C3: a bare name, an attribute-callee call with a string
argument, and an unsupported bare shape all classify without error. -/
theorem C3_no_raise_on_supported_shapes_witness :
    ∃ r, decorator_names [PyExpr.name "deco",
      PyExpr.call (PyExpr.attr "app" "get") [PyExpr.const (PyVal.str "/users")],
      PyExpr.other] = Except.ok r := by
  apply C3_no_raise_on_supported_shapes
  intro e he
  simp at he
  rcases he with h1 | h2 | h3
  · subst h1; trivial
  · subst h2
    refine ⟨⟨"get", Or.inr ⟨"app", "get", rfl⟩⟩, ?_⟩
    intro v hv
    rw [List.mem_singleton] at hv
    injection hv with h4
    exact ⟨"/users", h4⟩
  · subst h3; trivial

/-- Claim C4, counterexample: in the round-trip scenario (a class with
`__init__` carrying a real docstring and `run` with description
"Runs it." and return type `bool`) the summary table has exactly one row
but the expanded-detail section has TWO blocks, because `__init__` is
excluded only from the table, not from the expanded section; and with
`run`'s description set to the sentinel the section still has one block
(`__init__`'s), not zero. -/
theorem C4_counterexample :
    (methodTableRows (roundTripMethods "Initializes.")).length = 1 ∧
    (expandedBlocks (roundTripMethods "Initializes.")).length = 2 ∧
    (expandedBlocks [("__init__", mkInit "Initializes."),
      ("run", FunctionDoc.mk "None" [] (some ⟨"bool"⟩))]).length = 1 :=
  ⟨by decide, by decide, by decide⟩

/-- Claim C4, amended: in the round-trip scenario the summary table
contains exactly one row (for `run`) whose Returns cell is backticked
`bool`; the expanded-detail section contains exactly two blocks — one
for `__init__` (whose description is non-sentinel) and one for `run` —
and exactly one block (`__init__`'s) if `run`'s description equals the
sentinel. -/
theorem C4_round_trip (initDesc : String) (h : initDesc ≠ "None") :
    methodTableRows (roundTripMethods initDesc) = [methodRow "run" runDoc] ∧
    methodRow "run" runDoc = "| `run` | Runs it. | `bool` |\n" ∧
    expandedBlocks (roundTripMethods initDesc) =
      ["\n" ++ function_to_markdown "__init__" (mkInit initDesc),
        "\n" ++ function_to_markdown "run" runDoc] ∧
    expandedBlocks [("__init__", mkInit initDesc),
        ("run", FunctionDoc.mk "None" [] (some ⟨"bool"⟩))] =
      ["\n" ++ function_to_markdown "__init__" (mkInit initDesc)] := by
  refine ⟨?_, by decide, ?_, ?_⟩
  · simp [methodTableRows, tableSelect, roundTripMethods]
  · simp [expandedBlocks, expandedSelect, roundTripMethods, mkInit, runDoc, h]
  · simp [expandedBlocks, expandedSelect, mkInit, h]

/-- Witness for C4: the scenario with `__init__` description
"Initializes.". -/
theorem C4_round_trip_witness :
    ("Initializes." : String) ≠ "None" ∧
    methodTableRows (roundTripMethods "Initializes.") = [methodRow "run" runDoc] ∧
    expandedBlocks (roundTripMethods "Initializes.") =
      ["\n" ++ function_to_markdown "__init__" (mkInit "Initializes."),
        "\n" ++ function_to_markdown "run" runDoc] :=
  ⟨by decide, (C4_round_trip "Initializes." (by decide)).1,
    (C4_round_trip "Initializes." (by decide)).2.2.1⟩

/-- Claim C8: a method whose short description is the sentinel "None" is
excluded from the expanded-detail section but still appears in the
summary table — unless it is named `__init__`, which the table always
excludes. -/
theorem C8_sentinel_omission (methods : List (String × FunctionDoc)) (name : String)
    (doc : FunctionDoc) (hnd : (dictKeys methods).Nodup) (hmem : (name, doc) ∈ methods)
    (hdesc : doc.short_description = "None") :
    (∀ p ∈ expandedSelect methods, p.1 ≠ name) ∧
    (name ≠ "__init__" → name ∈ (tableSelect methods).map (fun p => p.1)) ∧
    (name = "__init__" → name ∉ (tableSelect methods).map (fun p => p.1)) := by
  refine ⟨?_, ?_, ?_⟩
  · intro p hp hpe
    obtain ⟨q1, q2⟩ := p
    have hmem2 := (List.mem_filter.1 hp).1
    have hpred := (List.mem_filter.1 hp).2
    simp at hpe
    subst hpe
    have heq : q2 = doc := nodupKeys_eq methods hnd q1 q2 doc hmem2 hmem
    subst heq
    simp [hdesc] at hpred
  · intro hne
    have hmem3 : (name, doc) ∈ tableSelect methods :=
      List.mem_filter.2 ⟨hmem, by simpa using hne⟩
    exact List.mem_map_of_mem (fun p => p.1) hmem3
  · intro hinit hmemmap
    obtain ⟨q, hq, hq1⟩ := List.mem_map.1 hmemmap
    have hqpred := (List.mem_filter.1 hq).2
    simp at hqpred
    exact hqpred (hq1.trans hinit)

/-- Witness for C8: a sentinel-described method `x` (not `__init__`)
still appears in the summary table. -/
theorem C8_sentinel_omission_witness :
    (dictKeys [("x", FunctionDoc.mk "None" [] none), ("run", runDoc)]).Nodup ∧
    "x" ∈ (tableSelect [("x", FunctionDoc.mk "None" [] none), ("run", runDoc)]).map
      (fun p => p.1) :=
  ⟨by decide,
    (C8_sentinel_omission [("x", FunctionDoc.mk "None" [] none), ("run", runDoc)] "x"
      (FunctionDoc.mk "None" [] none) (by decide) (by decide) rfl).2.1 (by decide)⟩

/-! Preservation lemmas for the tree visitor (claim C6). -/

theorem Preserves_refl (d : Doc) : Preserves d d :=
  ⟨Nat.le_refl _, fun _ _ => rfl, fun _ hk => hk⟩

theorem Preserves_trans {a b c : Doc} (h1 : Preserves a b) (h2 : Preserves b c) :
    Preserves a c := by
  refine ⟨Nat.le_trans h1.1 h2.1, ?_, fun k hk => h2.2.2 k (h1.2.2 k hk)⟩
  intro i hi
  rw [h2.2.1 i (Nat.lt_of_lt_of_le hi h1.1), h1.2.1 i hi]

theorem get?_some_lt {α : Type u} (l : List α) (i : Nat) (a : α)
    (h : l.get? i = some a) : i < l.length := by
  by_contra hni
  push_neg at hni
  rw [List.get?_eq_none.2 hni] at h
  cases h

theorem Preserves_get?_some {d d' : Doc} (h : Preserves d d') (i : Nat) (c : ClassDoc)
    (hc : d.classes.get? i = some c) : d'.classes.get? i = some c := by
  rw [h.2.1 i (get?_some_lt _ _ _ hc)]
  exact hc

theorem pres_append_function (d : Doc) (n : String) (doc : FunctionDoc)
    (tags : List String) : Preserves d (d.append_function n doc tags) := by
  refine ⟨?_, ?_, ?_⟩
  · rw [append_function_classes]
  · intro i hi
    rw [append_function_classes]
  · intro k hk
    rw [append_function_functions]
    exact dictLookup_isSome_dictInsert _ _ _ _ hk

theorem pres_module (d : Doc) (x : Option FunctionDoc) :
    Preserves d { d with module := x } :=
  ⟨Nat.le_refl _, fun _ _ => rfl, fun _ hk => hk⟩

theorem pres_append_class (d : Doc) (n : String) (doc : FunctionDoc)
    (decs : List String) : Preserves d (d.append_class n doc decs).1 := by
  refine ⟨?_, ?_, fun _ hk => hk⟩
  · simp [Doc.append_class]
  · intro i hi
    simp only [Doc.append_class]
    exact List.get?_append hi

theorem appendMethodAt_length (d : Doc) (idx : Nat) (n : String) (doc : FunctionDoc) :
    (d.appendMethodAt idx n doc).classes.length = d.classes.length := by
  simp [Doc.appendMethodAt, listModify_length]

theorem appendMethodAt_get?_ne (d : Doc) (idx : Nat) (n : String) (doc : FunctionDoc)
    (i : Nat) (h : i ≠ idx) :
    (d.appendMethodAt idx n doc).classes.get? i = d.classes.get? i :=
  listModify_get?_ne _ _ _ _ h

theorem appendMethodAt_get?_self (d : Doc) (idx : Nat) (n : String) (doc : FunctionDoc)
    (c : ClassDoc) (h : d.classes.get? idx = some c) :
    (d.appendMethodAt idx n doc).classes.get? idx = some (c.append_method n doc) :=
  listModify_get?_self _ _ _ _ h

theorem appendMethodAt_functions (d : Doc) (idx : Nat) (n : String) (doc : FunctionDoc) :
    (d.appendMethodAt idx n doc).functions = d.functions := rfl

theorem MLPres_refl (d : Doc) (idx : Nat) : MLPres d idx d :=
  ⟨Nat.le_refl _, fun _ _ _ => rfl, fun _ hk => hk,
    fun c hc => ⟨c, hc, rfl, fun _ hk => hk⟩⟩

theorem pres_then_ml {a b c : Doc} {idx : Nat} (h1 : Preserves a b)
    (h2 : MLPres b idx c) : MLPres a idx c := by
  refine ⟨Nat.le_trans h1.1 h2.1, ?_, fun k hk => h2.2.2.1 k (h1.2.2 k hk), ?_⟩
  · intro i hi hne
    rw [h2.2.1 i (Nat.lt_of_lt_of_le hi h1.1) hne, h1.2.1 i hi]
  · intro c0 hc0
    exact h2.2.2.2 c0 (Preserves_get?_some h1 idx c0 hc0)

theorem appendMethodAt_then_ml {d d' : Doc} {idx : Nat} {n : String} {doc : FunctionDoc}
    (h : MLPres (d.appendMethodAt idx n doc) idx d') : MLPres d idx d' := by
  refine ⟨?_, ?_, ?_, ?_⟩
  · rw [← appendMethodAt_length d idx n doc]
    exact h.1
  · intro i hi hne
    rw [h.2.1 i (by rw [appendMethodAt_length]; exact hi) hne,
      appendMethodAt_get?_ne d idx n doc i hne]
  · intro k hk
    exact h.2.2.1 k (by rw [appendMethodAt_functions]; exact hk)
  · intro c hc
    obtain ⟨c2, hc2, hname, hmono⟩ :=
      h.2.2.2 (c.append_method n doc) (appendMethodAt_get?_self d idx n doc c hc)
    exact ⟨c2, hc2, hname, fun k hk =>
      hmono k (dictLookup_isSome_dictInsert c.methods n k doc hk)⟩

theorem visit_pres_main :
    ∀ (d : Doc) (n : PyNode) (d' : Doc), visit d n = Except.ok d' → Preserves d d' := by
  have main : ∀ (d : Doc) (n : PyNode), ∀ d', visit d n = Except.ok d' → Preserves d d' := by
    refine visit.induct
      (fun d n => ∀ d', visit d n = Except.ok d' → Preserves d d')
      (fun d idx body => ∀ d', methodsLoop d idx body = Except.ok d' → MLPres d idx d')
      (fun d ns => ∀ d', genericVisitList d ns = Except.ok d' → Preserves d d')
      ?_ ?_ ?_ ?_ ?_ ?_ ?_ ?_ ?_ ?_
    · intro d body dlet ih d' h
      rw [visit.eq_1] at h
      exact Preserves_trans (pres_module d _) (ih d' h)
    · intro d name decs body ih d' h
      rw [visit.eq_2] at h
      cases htags : decorator_names decs with
      | error e =>
          rw [htags, exceptBind_err] at h
          simp at h
      | ok tags =>
          simp only [htags, exceptBind_ok] at h
          exact Preserves_trans (pres_append_function d name _ tags) (ih tags d' h)
    · intro d name decs body ihml ihgv d' h
      rw [visit.eq_3] at h
      cases htags : decorator_names decs with
      | error e =>
          rw [htags, exceptBind_err] at h
          simp at h
      | ok tags =>
          simp only [htags, exceptBind_ok] at h
          cases hml : methodsLoop
              (d.append_class name (grab_doc (PyNode.classDefn name decs body)) tags).1
              (d.append_class name (grab_doc (PyNode.classDefn name decs body)) tags).2
              body with
          | error e =>
              rw [hml, exceptBind_err] at h
              simp at h
          | ok dB =>
              simp only [hml, exceptBind_ok] at h
              have h1 : Preserves d
                  (d.append_class name (grab_doc (PyNode.classDefn name decs body)) tags).1 :=
                pres_append_class d name _ tags
              have h2 := ihml tags dB hml
              have h3 := ihgv dB d' h
              refine ⟨Nat.le_trans h1.1 (Nat.le_trans h2.1 h3.1), ?_, ?_⟩
              · intro i hi
                have hip : i <
                    (d.append_class name (grab_doc (PyNode.classDefn name decs body)) tags).1.classes.length :=
                  Nat.lt_of_lt_of_le hi h1.1
                have hne : i ≠
                    (d.append_class name (grab_doc (PyNode.classDefn name decs body)) tags).2 :=
                  Nat.ne_of_lt hi
                rw [h3.2.1 i (Nat.lt_of_lt_of_le hip h2.1), h2.2.1 i hip hne, h1.2.1 i hi]
              · intro k hk
                exact h3.2.2 k (h2.2.2.1 k (h1.2.2 k hk))
    · intro d s d' h
      rw [visit.eq_4] at h
      simp only [exceptPure_eq, Except.ok.injEq] at h
      subst h
      exact Preserves_refl _
    · intro d children ih d' h
      rw [visit.eq_5] at h
      exact ih d' h
    · intro d idx d' h
      rw [methodsLoop.eq_1] at h
      simp only [exceptPure_eq, Except.ok.injEq] at h
      subst h
      exact MLPres_refl _ _
    · intro d idx rest fname fdecs fbody dlet ihrest ihgv d' h
      rw [methodsLoop.eq_2] at h
      cases hgv : genericVisitList
          (d.appendMethodAt idx fname (grab_doc (PyNode.funcDefn fname fdecs fbody)))
          fbody with
      | error e =>
          rw [hgv, exceptBind_err] at h
          simp at h
      | ok dB =>
          simp only [hgv, exceptBind_ok] at h
          exact appendMethodAt_then_ml (pres_then_ml (ihgv dB hgv) (ihrest dB d' h))
    · intro d idx n rest hnot ihrest d' h
      rw [methodsLoop.eq_3 d idx n rest hnot] at h
      simp only [exceptPure_eq, exceptBind_ok] at h
      exact ihrest d d' h
    · intro d d' h
      rw [genericVisitList.eq_1] at h
      simp only [exceptPure_eq, Except.ok.injEq] at h
      subst h
      exact Preserves_refl _
    · intro d n rest ihn ihrest d' h
      rw [genericVisitList.eq_2] at h
      cases hv : visit d n with
      | error e =>
          rw [hv, exceptBind_err] at h
          simp at h
      | ok d1 =>
          simp only [hv, exceptBind_ok] at h
          exact Preserves_trans (ihn d1 hv) (ihrest d1 d' h)
  exact fun d n d' h => main d n d' h

theorem genericVisitList_pres (ns : List PyNode) :
    ∀ d d', genericVisitList d ns = Except.ok d' → Preserves d d' := by
  induction ns with
  | nil =>
      intro d d' h
      rw [genericVisitList.eq_1] at h
      simp only [exceptPure_eq, Except.ok.injEq] at h
      subst h
      exact Preserves_refl _
  | cons n rest ih =>
      intro d d' h
      rw [genericVisitList.eq_2] at h
      cases hv : visit d n with
      | error e =>
          rw [hv, exceptBind_err] at h
          simp at h
      | ok d1 =>
          simp only [hv, exceptBind_ok] at h
          exact Preserves_trans (visit_pres_main d n d1 hv) (ih d1 d' h)

theorem methodsLoop_pres (body : List PyNode) :
    ∀ d idx d', methodsLoop d idx body = Except.ok d' → MLPres d idx d' := by
  induction body with
  | nil =>
      intro d idx d' h
      rw [methodsLoop.eq_1] at h
      simp only [exceptPure_eq, Except.ok.injEq] at h
      subst h
      exact MLPres_refl _ _
  | cons n rest ih =>
      intro d idx d' h
      cases n with
      | funcDefn fname fdecs fbody =>
          rw [methodsLoop.eq_2] at h
          cases hgv : genericVisitList
              (d.appendMethodAt idx fname (grab_doc (PyNode.funcDefn fname fdecs fbody)))
              fbody with
          | error e =>
              rw [hgv, exceptBind_err] at h
              simp at h
          | ok dB =>
              simp only [hgv, exceptBind_ok] at h
              exact appendMethodAt_then_ml
                (pres_then_ml (genericVisitList_pres fbody _ dB hgv) (ih dB idx d' h))
      | module b =>
          rw [methodsLoop.eq_3 d idx _ rest (fun f g bb hc => PyNode.noConfusion hc)] at h
          simp only [exceptPure_eq, exceptBind_ok] at h
          exact ih d idx d' h
      | classDefn cn cd cb =>
          rw [methodsLoop.eq_3 d idx _ rest (fun f g bb hc => PyNode.noConfusion hc)] at h
          simp only [exceptPure_eq, exceptBind_ok] at h
          exact ih d idx d' h
      | exprConst s =>
          rw [methodsLoop.eq_3 d idx _ rest (fun f g bb hc => PyNode.noConfusion hc)] at h
          simp only [exceptPure_eq, exceptBind_ok] at h
          exact ih d idx d' h
      | other ch =>
          rw [methodsLoop.eq_3 d idx _ rest (fun f g bb hc => PyNode.noConfusion hc)] at h
          simp only [exceptPure_eq, exceptBind_ok] at h
          exact ih d idx d' h

theorem genericVisitList_records (fname : String) (fdecs : List PyExpr) (fbody : List PyNode)
    (ns : List PyNode) :
    ∀ d d', PyNode.funcDefn fname fdecs fbody ∈ ns →
      genericVisitList d ns = Except.ok d' → (dictLookup d'.functions fname).isSome := by
  induction ns with
  | nil =>
      intro d d' hmem
      cases hmem
  | cons n rest ih =>
      intro d d' hmem h
      rw [genericVisitList.eq_2] at h
      cases hv : visit d n with
      | error e =>
          rw [hv, exceptBind_err] at h
          simp at h
      | ok d1 =>
          simp only [hv, exceptBind_ok] at h
          rcases List.mem_cons.1 hmem with h1 | h2
          · subst h1
            rw [visit.eq_2] at hv
            cases htags : decorator_names fdecs with
            | error e =>
                rw [htags, exceptBind_err] at hv
                simp at hv
            | ok tags =>
                simp only [htags, exceptBind_ok] at hv
                have hins : (dictLookup
                    (d.append_function fname
                      (grab_doc (PyNode.funcDefn fname fdecs fbody)) tags).functions
                    fname).isSome := by
                  rw [append_function_functions, dictLookup_dictInsert_self]
                  rfl
                have hp1 := genericVisitList_pres fbody _ d1 hv
                have hp2 := genericVisitList_pres rest d1 d' h
                exact hp2.2.2 fname (hp1.2.2 fname hins)
          · exact ih d1 d' h2 h

theorem methodsLoop_records (fname : String) (fdecs : List PyExpr) (fbody : List PyNode)
    (body : List PyNode) :
    ∀ d idx d' c0, PyNode.funcDefn fname fdecs fbody ∈ body →
      methodsLoop d idx body = Except.ok d' → d.classes.get? idx = some c0 →
      ∃ c, d'.classes.get? idx = some c ∧ c.name = c0.name ∧
        (dictLookup c.methods fname).isSome := by
  induction body with
  | nil =>
      intro d idx d' c0 hmem
      cases hmem
  | cons n rest ih =>
      intro d idx d' c0 hmem h hc0
      rcases List.mem_cons.1 hmem with h1 | h2
      · subst h1
        rw [methodsLoop.eq_2] at h
        cases hgv : genericVisitList
            (d.appendMethodAt idx fname (grab_doc (PyNode.funcDefn fname fdecs fbody)))
            fbody with
        | error e =>
            rw [hgv, exceptBind_err] at h
            simp at h
        | ok dB =>
            simp only [hgv, exceptBind_ok] at h
            have hA := appendMethodAt_get?_self d idx fname
              (grab_doc (PyNode.funcDefn fname fdecs fbody)) c0 hc0
            have hAk : (dictLookup
                (c0.append_method fname
                  (grab_doc (PyNode.funcDefn fname fdecs fbody))).methods fname).isSome := by
              simp [ClassDoc.append_method, dictLookup_dictInsert_self]
            have hB := Preserves_get?_some (genericVisitList_pres fbody _ dB hgv) idx _ hA
            obtain ⟨c2, hc2, hname, hmono⟩ := (methodsLoop_pres rest dB idx d' h).2.2.2 _ hB
            exact ⟨c2, hc2, hname, hmono fname hAk⟩
      · cases n with
        | funcDefn gname gdecs gbody =>
            rw [methodsLoop.eq_2] at h
            cases hgv : genericVisitList
                (d.appendMethodAt idx gname (grab_doc (PyNode.funcDefn gname gdecs gbody)))
                gbody with
            | error e =>
                rw [hgv, exceptBind_err] at h
                simp at h
            | ok dB =>
                simp only [hgv, exceptBind_ok] at h
                have hA := appendMethodAt_get?_self d idx gname
                  (grab_doc (PyNode.funcDefn gname gdecs gbody)) c0 hc0
                have hB := Preserves_get?_some (genericVisitList_pres gbody _ dB hgv) idx _ hA
                obtain ⟨c, hc, hname, hk⟩ := ih dB idx d' _ h2 h hB
                exact ⟨c, hc, hname, hk⟩
        | module b =>
            rw [methodsLoop.eq_3 d idx _ rest (fun f g bb hc => PyNode.noConfusion hc)] at h
            simp only [exceptPure_eq, exceptBind_ok] at h
            exact ih d idx d' c0 h2 h hc0
        | classDefn cn cd cb =>
            rw [methodsLoop.eq_3 d idx _ rest (fun f g bb hc => PyNode.noConfusion hc)] at h
            simp only [exceptPure_eq, exceptBind_ok] at h
            exact ih d idx d' c0 h2 h hc0
        | exprConst s =>
            rw [methodsLoop.eq_3 d idx _ rest (fun f g bb hc => PyNode.noConfusion hc)] at h
            simp only [exceptPure_eq, exceptBind_ok] at h
            exact ih d idx d' c0 h2 h hc0
        | other ch =>
            rw [methodsLoop.eq_3 d idx _ rest (fun f g bb hc => PyNode.noConfusion hc)] at h
            simp only [exceptPure_eq, exceptBind_ok] at h
            exact ih d idx d' c0 h2 h hc0

theorem compileFold_mono_funcs (eps : List (String × String))
    (l : List (String × FunctionDoc)) :
    ∀ acc a, a ∈ acc.1 → a ∈ ((l.foldl (compileStep eps) acc)).1 := by
  induction l with
  | nil => intro acc a ha; exact ha
  | cons p rest ih =>
      intro acc a ha
      refine ih (compileStep eps acc p) a ?_
      cases hl : dictLookup eps p.1 with
      | some ep => simpa [compileStep, hl] using ha
      | none =>
          simp only [compileStep, hl]
          exact List.mem_append_left _ ha

theorem compileFold_mono_eps (eps : List (String × String))
    (l : List (String × FunctionDoc)) :
    ∀ acc x, x ∈ acc.2 → x ∈ ((l.foldl (compileStep eps) acc)).2 := by
  induction l with
  | nil => intro acc x hx; exact hx
  | cons p rest ih =>
      intro acc x hx
      refine ih (compileStep eps acc p) x ?_
      cases hl : dictLookup eps p.1 with
      | some ep =>
          simp only [compileStep, hl]
          exact List.mem_append_left _ hx
      | none => simpa [compileStep, hl] using hx

theorem compileFold_mem (eps : List (String × String)) (l : List (String × FunctionDoc)) :
    ∀ acc k v, (k, v) ∈ l →
      (∃ ep, (k, function_to_markdown k v, ep) ∈ ((l.foldl (compileStep eps) acc)).2) ∨
        function_to_markdown k v ∈ ((l.foldl (compileStep eps) acc)).1 := by
  induction l with
  | nil => intro acc k v hm; cases hm
  | cons p rest ih =>
      intro acc k v hm
      rcases List.mem_cons.1 hm with h1 | h2
      · subst h1
        cases hl : dictLookup eps k with
        | some ep =>
            refine Or.inl ⟨ep, compileFold_mono_eps eps rest _ _ ?_⟩
            simp only [compileStep, hl]
            exact List.mem_append_right _ (List.mem_singleton.2 rfl)
        | none =>
            refine Or.inr (compileFold_mono_funcs eps rest _ _ ?_)
            simp only [compileStep, hl]
            exact List.mem_append_right _ (List.mem_singleton.2 rfl)
      · exact ih (compileStep eps acc p) k v h2

theorem compile_mem (d : Doc) (k : String) (v : FunctionDoc)
    (hm : (k, v) ∈ d.functions) :
    (∃ ep, (k, function_to_markdown k v, ep) ∈ ((d.compile)).2.2.2) ∨
      function_to_markdown k v ∈ ((d.compile)).2.2.1 :=
  compileFold_mem d.endpoints d.functions ([], []) k v hm

/-- Claim C6: for every class definition visited, each function defined
directly in the class body is recorded twice — as a method of the
`ClassDoc` created for the class AND as a key of the `Doc`'s top-level
`functions` mapping (where it is endpoint-classified by
`append_function`) — because the final `generic_visit(node)` of
`visit_ClassDef` re-dispatches the class's immediate `FunctionDef`
children to `visit_FunctionDef`; consequently the method's name also
appears in `compile`'s endpoint output or its rendered block in the
non-endpoint function output. -/
theorem C6_methods_recorded_twice (d : Doc) (cname : String) (cdecs : List PyExpr)
    (cbody : List PyNode) (fname : String) (fdecs : List PyExpr) (fbody : List PyNode)
    (d' : Doc) (hmem : PyNode.funcDefn fname fdecs fbody ∈ cbody)
    (hok : visit d (PyNode.classDefn cname cdecs cbody) = Except.ok d') :
    (∃ c, d'.classes.get? d.classes.length = some c ∧ c.name = cname ∧
      (dictLookup c.methods fname).isSome) ∧
    (dictLookup d'.functions fname).isSome ∧
    (∃ doc, dictLookup d'.functions fname = some doc ∧
      ((∃ ep, (fname, function_to_markdown fname doc, ep) ∈ ((d'.compile)).2.2.2) ∨
        function_to_markdown fname doc ∈ ((d'.compile)).2.2.1)) := by
  rw [visit.eq_3] at hok
  cases htags : decorator_names cdecs with
  | error e =>
      rw [htags, exceptBind_err] at hok
      simp at hok
  | ok tags =>
      simp only [htags, exceptBind_ok] at hok
      cases hml : methodsLoop
          (d.append_class cname (grab_doc (PyNode.classDefn cname cdecs cbody)) tags).1
          (d.append_class cname (grab_doc (PyNode.classDefn cname cdecs cbody)) tags).2
          cbody with
      | error e =>
          rw [hml, exceptBind_err] at hok
          simp at hok
      | ok dB =>
          simp only [hml, exceptBind_ok] at hok
          have hc0 : (d.append_class cname
              (grab_doc (PyNode.classDefn cname cdecs cbody)) tags).1.classes.get?
              (d.append_class cname (grab_doc (PyNode.classDefn cname cdecs cbody)) tags).2 =
              some (ClassDoc.mk cname (grab_doc (PyNode.classDefn cname cdecs cbody)) [] tags) :=
            List.get?_concat_length d.classes _
          obtain ⟨c, hc, hname, hck⟩ :=
            methodsLoop_records fname fdecs fbody cbody _ _ dB _ hmem hml hc0
          have hc2 := Preserves_get?_some (genericVisitList_pres cbody dB d' hok) _ _ hc
          have hfun := genericVisitList_records fname fdecs fbody cbody dB d' hmem hok
          obtain ⟨doc, hdoc⟩ := Option.isSome_iff_exists.1 hfun
          refine ⟨⟨c, hc2, hname, hck⟩, hfun, doc, hdoc, ?_⟩
          exact compile_mem d' fname doc (dictLookup_mem _ _ _ hdoc)

/-- Witness for C6: visiting a class `C` whose body holds a docstring and
one method `run` records `run` both in the class's methods and in the
`Doc`'s functions. -/
theorem C6_methods_recorded_twice_witness :
    visit (Doc.new "m") tree1 = Except.ok tree1Doc ∧
    (∃ c, tree1Doc.classes.get? 0 = some c ∧ c.name = "C" ∧
      (dictLookup c.methods "run").isSome) ∧
    (dictLookup tree1Doc.functions "run").isSome := by
  have hmem : PyNode.funcDefn "run" [] [PyNode.exprConst "Runs it."] ∈
      [PyNode.exprConst "Class doc.",
        PyNode.funcDefn "run" [] [PyNode.exprConst "Runs it."]] :=
    List.mem_cons_of_mem _ (List.mem_cons_self _ _)
  have hok : visit (Doc.new "m") (PyNode.classDefn "C" []
      [PyNode.exprConst "Class doc.",
        PyNode.funcDefn "run" [] [PyNode.exprConst "Runs it."]]) =
      Except.ok tree1Doc := by
    simp [visit, genericVisitList, methodsLoop, decorator_names, grab_doc, getDocstring,
      optStr, docstringParse, Doc.new, Doc.append_class, Doc.append_function,
      Doc.appendMethodAt, Doc.matchStep, endpoint_decorators, listModify,
      ClassDoc.append_method, dictInsert, firstParagraphAux, tree1Doc,
      getDocstring.bodyDocstring, exceptPure_eq, exceptBind_ok, decoratorStep]
  have h := C6_methods_recorded_twice (Doc.new "m") "C" []
    [PyNode.exprConst "Class doc.", PyNode.funcDefn "run" [] [PyNode.exprConst "Runs it."]]
    "run" [] [PyNode.exprConst "Runs it."] tree1Doc hmem hok
  exact ⟨hok, h.1, h.2.1⟩

/-- Witness for C10: a singleton parameter list with no recorded default
renders header plus one row with the required marker; a parameter with a
recorded default renders that default. -/
theorem C10_param_table_witness :
    param_table_from [pReq] = paramTableHeader ++ String.join ([pReq].map paramRow) ∧
    pyOr pReq.default "*is required*" = "*is required*" ∧
    pyOr pDef.default "*is required*" = pDef.default :=
  ⟨C10_param_table.2.1 [pReq] (by decide), C10_param_table.2.2.1 pReq (by decide),
    C10_param_table.2.2.2 pDef (by decide)⟩

end DocGen
